import Mathlib

/-!
Verification of the hierarchical call-tree profiler in
`include/taichi/system/profiler.h`.

Shallow embedding:

* `Node` mirrors `ProfilerRecords::Node`: a name, accumulated
  `total_time` (the C++ `float64`, modelled as `ℚ`), a sample count
  `num_samples` (the C++ `int64`, modelled as `Int`), and the ordered
  child list `childs`.  The C++ `parent` back-pointer is represented
  positionally: a node is addressed by its path (list of child indices)
  from the root, and the parent of path `p ++ [i]` is path `p`; the
  parent of the root path `[]` is the null pointer, modelled as `none`.
* `ProfilerRecords` carries the owned `root` tree, the cursor
  `current_node` (`some path`, or `none` for a null cursor after popping
  past the root) and `current_depth`.
* Operations that in C++ would dereference a null or dangling pointer
  return `none` (undefined behaviour); otherwise they return the updated
  state.
* `Profiler` mirrors the scoped-region handle; the wall clock is passed
  in explicitly as the `now` argument of each lifecycle operation, and
  `assert_info` failure is the distinguished result
  `StopResult.assertFailed`.
* `printM` mirrors `ProfilerRecords::print(Node *, int)`: it returns the
  list of emitted lines together with the node as the traversal leaves
  it, so that read-onlyness is a provable statement rather than a
  typing accident.
-/

/-- One entry of the accumulation tree (`ProfilerRecords::Node`). -/
inductive Node where
  | mk (name : String) (total_time : ℚ) (num_samples : Int) (childs : List Node)

/-- Field accessor for the node name. -/
def Node.name : Node → String
  | .mk nm _ _ _ => nm

/-- Field accessor for the accumulated time. -/
def Node.total_time : Node → ℚ
  | .mk _ t _ _ => t

/-- Field accessor for the sample count. -/
def Node.num_samples : Node → Int
  | .mk _ _ k _ => k

/-- Field accessor for the ordered child list. -/
def Node.childs : Node → List Node
  | .mk _ _ _ cs => cs

/-- C++ `Node::insert_sample`: `num_samples += 1; total_time += sample`. -/
def Node.insert_sample (n : Node) (sample : ℚ) : Node :=
  Node.mk n.name (n.total_time + sample) (n.num_samples + 1) n.childs

/-- C++ `Node::get_averaged`: `total_time / max(num_samples, 1LL)`. -/
def Node.get_averaged (n : Node) : ℚ :=
  n.total_time / ((max n.num_samples 1 : Int) : ℚ)

/-- Index of the first child whose name matches, mirroring the linear
scan in `Node::get_child`. -/
def findChild : List Node → String → Option Nat
  | [], _ => none
  | c :: cs, nm =>
    if c.name = nm then some 0 else (findChild cs nm).map (fun i => i + 1)

/-- C++ `Node::get_child`: linear scan of `childs` for the name; on a
miss, `push_back` a fresh node (`total_time = 0`, `num_samples = 1`)
and return it.  Node identity is rendered as the index into `childs`. -/
def Node.get_child (n : Node) (nm : String) : Node × Nat :=
  match findChild n.childs nm with
  | some i => (n, i)
  | none =>
      (Node.mk n.name n.total_time n.num_samples
        (n.childs ++ [Node.mk nm 0 1 []]), n.childs.length)

/-- Replace the child at index `i` (used to write back a modified
subtree along a path). -/
def Node.setChild (n : Node) (i : Nat) (c : Node) : Node :=
  Node.mk n.name n.total_time n.num_samples (n.childs.set i c)

/-- Follow a path of child indices down from a node.  `none` means the
path does not denote a live node (a dangling pointer in C++ terms). -/
def Node.lookup : List Nat → Node → Option Node
  | [], n => some n
  | i :: rest, n => (n.childs[i]?).bind (Node.lookup rest)

/-- Perform `get_child nm` at the node addressed by `p`, returning the
rebuilt tree and the index of the returned child under that node. -/
def Node.pushAt : List Nat → String → Node → Option (Node × Nat)
  | [], nm, n => some (n.get_child nm)
  | i :: rest, nm, n =>
      (n.childs[i]?).bind fun c =>
        (Node.pushAt rest nm c).map fun r => (n.setChild i r.1, r.2)

/-- Perform `insert_sample t` at the node addressed by `p`. -/
def Node.insertAt : List Nat → ℚ → Node → Option Node
  | [], t, n => some (n.insert_sample t)
  | i :: rest, t, n =>
      (n.childs[i]?).bind fun c =>
        (Node.insertAt rest t c).map (n.setChild i)

/-- The mutable profiler state: owned root tree, cursor and depth.
`current_node = none` models a null `Node *` cursor. -/
structure ProfilerRecords where
  root : Node
  current_node : Option (List Nat)
  current_depth : Int

/-- The freshly constructed state: root named `"[Taichi Profiler]"`,
cursor at the root, depth `0`. -/
def ProfilerRecords.init : ProfilerRecords :=
  ⟨Node.mk "[Taichi Profiler]" 0 1 [], some [], 0⟩

/-- C++ `ProfilerRecords::push`: `current_node = current_node->get_child(name);
current_depth += 1`.  A null cursor dereference yields `none`. -/
def ProfilerRecords.push (s : ProfilerRecords) (nm : String) :
    Option ProfilerRecords :=
  s.current_node.bind fun p =>
    (Node.pushAt p nm s.root).map fun r =>
      ⟨r.1, some (p ++ [r.2]), s.current_depth + 1⟩

/-- C++ `ProfilerRecords::pop`: `current_node = current_node->parent;
current_depth -= 1`.  No precondition is checked: at the root the cursor
becomes the root's null parent.  Only an already-null cursor is
undefined behaviour (`none`). -/
def ProfilerRecords.pop (s : ProfilerRecords) : Option ProfilerRecords :=
  s.current_node.map fun p =>
    ⟨s.root, if p = [] then none else some p.dropLast, s.current_depth - 1⟩

/-- C++ `ProfilerRecords::insert_sample`:
`current_node->insert_sample(time)`. -/
def ProfilerRecords.insert_sample (s : ProfilerRecords) (t : ℚ) :
    Option ProfilerRecords :=
  s.current_node.bind fun p =>
    (Node.insertAt p t s.root).map fun r =>
      ⟨r, s.current_node, s.current_depth⟩

/-- The scoped-region handle (`class Profiler`). -/
structure Profiler where
  start_time : ℚ
  name : String
  stopped : Bool

/-- Outcome of a `Profiler` lifecycle step: normal completion, an
`assert_info` contract failure, or undefined behaviour (null cursor). -/
inductive StopResult where
  | ok (p : Profiler) (s : ProfilerRecords)
  | assertFailed
  | ub

/-- C++ `Profiler::Profiler(name)`: record `start_time = now`, set
`stopped = false`, and `push(name)` on the records. -/
def Profiler.create (nm : String) (now : ℚ) (s : ProfilerRecords) :
    Option (Profiler × ProfilerRecords) :=
  (s.push nm).map fun s1 => (⟨now, nm, false⟩, s1)

/-- C++ `Profiler::stop`: `assert_info(!stopped, ...)`, then
`insert_sample(now - start_time)` and `pop()`.  Note that the source
never sets `stopped = true`, so the returned handle still has
`stopped = false`. -/
def Profiler.stop (p : Profiler) (now : ℚ) (s : ProfilerRecords) :
    StopResult :=
  if p.stopped then StopResult.assertFailed
  else
    match s.insert_sample (now - p.start_time) with
    | none => StopResult.ub
    | some s1 =>
        match s1.pop with
        | none => StopResult.ub
        | some s2 => StopResult.ok p s2

/-- C++ `Profiler::~Profiler`: `if (!stopped) stop();`. -/
def Profiler.destruct (p : Profiler) (now : ℚ) (s : ProfilerRecords) :
    StopResult :=
  if p.stopped then StopResult.ok p s else p.stop now s

/-- One line of the rendered report.  `indent` counts the two-space
units emitted by `make_indent`; `header` is the bare root name printed
at depth 0; `timeOnly` is the `"%6.2f %s"` form of the negligible-total
branch (seconds, no unit, no percentage); `timePct` is the
`"%6.2f%s %4.1f%%  %s"` form with the scaled time, unit and
percentage. -/
inductive PLine where
  | header (indent : Nat) (name : String)
  | timeOnly (indent : Nat) (time : ℚ) (name : String)
  | timePct (indent : Nat) (time : ℚ) (unit : String) (percent : ℚ)
      (name : String)
deriving DecidableEq

/-- C++ `ProfilerRecords::print(Node *node, int depth)`.  Returns the
emitted lines together with the node as the traversal leaves it (the
traversal only reads, which the returned node makes checkable). -/
def printM : Node → Nat → List PLine × Node
  | Node.mk nm tt k cs, depth =>
    let total_time := (Node.mk nm tt k cs).get_averaged
    let head : List PLine := if depth = 0 then [PLine.header depth nm] else []
    if total_time < 1 / 1000000 then
      let rs := cs.attach.map fun c =>
        let child_time := c.1.get_averaged
        let sub := printM c.1 (depth + 1)
        (PLine.timeOnly (depth + 1) child_time c.1.name :: sub.1, sub.2)
      (head ++ (rs.map fun r => r.1).flatten,
        Node.mk nm tt k (rs.map fun r => r.2))
    else
      let unit : String := if total_time < 1 / 10 then "ms" else "s"
      let scale : ℚ := if total_time < 1 / 10 then 1000 else 1
      let rs := cs.attach.map fun c =>
        let child_time := c.1.get_averaged
        let sub := printM c.1 (depth + 1)
        (PLine.timePct (depth + 1) (child_time * scale) unit
            (child_time * 100 / total_time) c.1.name :: sub.1,
          sub.2, child_time)
      let unaccounted : ℚ := rs.foldl (fun u r => u - r.2.2) total_time
      let body := (rs.map fun r => r.1).flatten
      let extra : List PLine :=
        if cs.isEmpty = false ∧ unaccounted > total_time * (5 / 100) then
          [PLine.timePct (depth + 1) (unaccounted * scale) unit
            (unaccounted * 100 / total_time) "[unaccounted]"]
        else []
      (head ++ body ++ extra, Node.mk nm tt k (rs.map fun r => r.2.1))
decreasing_by
  all_goals
    have h := List.sizeOf_lt_of_mem c.2
    simp only [Node.mk.sizeOf_spec]
    omega

/-- C++ `ProfilerRecords::print()`: `print(root.get(), 0)`.  The cursor
and depth are not touched. -/
def ProfilerRecords.print (s : ProfilerRecords) :
    List PLine × ProfilerRecords :=
  let r := printM s.root 0
  (r.1, ⟨r.2, s.current_node, s.current_depth⟩)

/-- Label field of a rendered line (the `%s` printed last). -/
def PLine.label : PLine → String
  | .header _ nm => nm
  | .timeOnly _ _ nm => nm
  | .timePct _ _ _ _ nm => nm

/-- Indent field of a rendered line (count of two-space units). -/
def PLine.indentOf : PLine → Nat
  | .header i _ => i
  | .timeOnly i _ _ => i
  | .timePct i _ _ _ _ => i

/-- The root-name line emitted at depth 0, and nothing elsewhere. -/
def headLines (n : Node) (depth : Nat) : List PLine :=
  if depth = 0 then [PLine.header depth n.name] else []

/-- Per-child output of the percentage branch: one `timePct` line for
the child (indented one level deeper than the node) followed by the
child's own subtree rendering. -/
def childLines (n : Node) (depth : Nat) (unit : String) (scale : ℚ) :
    List PLine :=
  (n.childs.map fun c =>
    PLine.timePct (depth + 1) (c.get_averaged * scale) unit
        (c.get_averaged * 100 / n.get_averaged) c.name ::
      (printM c (depth + 1)).1).flatten

/-- Per-child output of the negligible-total branch: one `timeOnly`
line (seconds, no percentage) followed by the child's subtree. -/
def zeroLines (n : Node) (depth : Nat) : List PLine :=
  (n.childs.map fun c =>
    PLine.timeOnly (depth + 1) c.get_averaged c.name ::
      (printM c (depth + 1)).1).flatten

/-- The net value of the `unaccounted` accumulator after the child
loop: the node's averaged total minus the children's averaged times. -/
def unaccountedOf (n : Node) : ℚ :=
  n.get_averaged - (n.childs.map Node.get_averaged).sum

/-- The conditional `[unaccounted]` line of the percentage branch. -/
def unaccountedLines (n : Node) (depth : Nat) (unit : String) (scale : ℚ) :
    List PLine :=
  if n.childs.isEmpty = false ∧
      unaccountedOf n > n.get_averaged * (5 / 100) then
    [PLine.timePct (depth + 1) (unaccountedOf n * scale) unit
      (unaccountedOf n * 100 / n.get_averaged) "[unaccounted]"]
  else []

/-- The rebuilt node returned by `printM` (children replaced by their
traversal results). -/
def printKids (n : Node) (depth : Nat) : Node :=
  Node.mk n.name n.total_time n.num_samples
    (n.childs.map fun c => (printM c (depth + 1)).2)

/-- One event of an instrumentation trace: entering a named region
(`Profiler` construction) or stopping the innermost open region
(`Profiler::stop`, which samples and pops). -/
inductive Op where
  | enter (nm : String)
  | leave (elapsed : ℚ)

/-- Effect of one trace event on the records: `enter` is the
constructor's `push`; `leave` is `stop`'s `insert_sample` then `pop`. -/
def applyOp (s : ProfilerRecords) : Op → Option ProfilerRecords
  | .enter nm => s.push nm
  | .leave t => (s.insert_sample t).bind ProfilerRecords.pop

/-- Run a trace of events left to right. -/
def run : ProfilerRecords → List Op → Option ProfilerRecords
  | s, [] => some s
  | s, op :: rest => (applyOp s op).bind fun s1 => run s1 rest

/-- Number of region entries in a trace. -/
def opens : List Op → Nat
  | [] => 0
  | .enter _ :: rest => opens rest + 1
  | .leave _ :: rest => opens rest

/-- Number of region stops in a trace. -/
def closes : List Op → Nat
  | [] => 0
  | .enter _ :: rest => closes rest
  | .leave _ :: rest => closes rest + 1

/-- Every node of the tree has `num_samples ≥ 1`. -/
inductive Node.AllGe1 : Node → Prop
  | mk (nm : String) (t : ℚ) (k : Int) (cs : List Node) :
      1 ≤ k → (∀ c ∈ cs, Node.AllGe1 c) →
      Node.AllGe1 (Node.mk nm t k cs)

/-- `SubNode n m` holds when `m` is a node of the tree rooted at `n`
(reflexive-transitive closure of the child relation). -/
inductive Node.SubNode : Node → Node → Prop
  | refl (n : Node) : Node.SubNode n n
  | step {n c m : Node} : c ∈ n.childs → Node.SubNode c m →
      Node.SubNode n m

/-- States of the records reachable from construction by the three
mutating operations. -/
inductive Reachable : ProfilerRecords → Prop
  | init : Reachable ProfilerRecords.init
  | push {s s1 : ProfilerRecords} {nm : String} :
      Reachable s → s.push nm = some s1 → Reachable s1
  | pop {s s1 : ProfilerRecords} :
      Reachable s → s.pop = some s1 → Reachable s1
  | insert {s s1 : ProfilerRecords} {t : ℚ} :
      Reachable s → s.insert_sample t = some s1 → Reachable s1

/-- The unit string chosen by `print` for a node, from its own
averaged total: `"ms"` below 0.1 seconds, else `"s"`. -/
def unitOf (n : Node) : String :=
  if n.get_averaged < 1 / 10 then "ms" else "s"

/-- The scale factor paired with `unitOf`: 1000 below 0.1 s, else 1. -/
def scaleOf (n : Node) : ℚ :=
  if n.get_averaged < 1 / 10 then 1000 else 1

/-! ### Helper lemmas -/

/-- Induction over a node and all its descendants. -/
theorem Node.ind (P : Node → Prop)
    (h : ∀ nm tt k cs, (∀ c ∈ cs, P c) → P (Node.mk nm tt k cs)) :
    ∀ n, P n := by
  intro n
  induction n using Node.rec (motive_2 := fun l => ∀ c ∈ l, P c) with
  | mk nm tt k cs ih => exact h nm tt k cs ih
  | nil =>
    rename_i c hc
    exact absurd hc (List.not_mem_nil c)
  | cons hd tl hhd htl =>
    rename_i c hc
    rcases List.mem_cons.mp hc with h1 | h2
    · exact h1 ▸ hhd
    · exact htl c h2

theorem findChild_none_iff (cs : List Node) (nm : String) :
    findChild cs nm = none ↔ ∀ c ∈ cs, c.name ≠ nm := by
  induction cs with
  | nil => simp [findChild]
  | cons c cs ih =>
    by_cases hc : c.name = nm
    · simp [findChild, hc]
    · simp [findChild, hc, ih]

theorem findChild_some (cs : List Node) (nm : String) (i : Nat)
    (h : findChild cs nm = some i) :
    ∃ c, cs[i]? = some c ∧ c.name = nm := by
  induction cs generalizing i with
  | nil => simp [findChild] at h
  | cons c cs ih =>
    by_cases hc : c.name = nm
    · simp [findChild, hc] at h
      exact ⟨c, by simp [← h], hc⟩
    · simp [findChild, hc] at h
      obtain ⟨j, hj, hij⟩ := h
      obtain ⟨d, hd, hdn⟩ := ih j hj
      exact ⟨d, by simpa [← hij] using hd, hdn⟩

theorem findChild_concat_hit (cs : List Node) (nm : String) (x : Node)
    (h : findChild cs nm = none) (hx : x.name = nm) :
    findChild (cs ++ [x]) nm = some cs.length := by
  induction cs with
  | nil => simp [findChild, hx]
  | cons c cs ih =>
    rw [findChild_none_iff] at h
    have hc : c.name ≠ nm := h c (by simp)
    have ht : findChild cs nm = none := by
      rw [findChild_none_iff]
      exact fun d hd => h d (by simp [hd])
    simp [findChild, hc, ih ht]

theorem Node.get_child_fresh (n : Node) (nm : String)
    (h : findChild n.childs nm = none) :
    n.get_child nm =
      (Node.mk n.name n.total_time n.num_samples
        (n.childs ++ [Node.mk nm 0 1 []]), n.childs.length) := by
  simp [Node.get_child, h]

theorem Node.get_child_idem (n : Node) (nm : String) :
    ((n.get_child nm).1).get_child nm = n.get_child nm := by
  cases n with
  | mk nm0 t0 k0 cs =>
    cases hf : findChild cs nm with
    | some i => simp [Node.get_child, Node.childs, hf]
    | none =>
      have hhit := findChild_concat_hit cs nm (Node.mk nm 0 1 []) hf rfl
      simp [Node.get_child, Node.childs, Node.name, Node.total_time,
        Node.num_samples, hf, hhit]

theorem Node.get_child_elem (n : Node) (nm : String) :
    ∃ c, ((n.get_child nm).1).childs[(n.get_child nm).2]? = some c ∧
      c.name = nm := by
  cases n with
  | mk nm0 t0 k0 cs =>
    cases hf : findChild cs nm with
    | some i =>
      obtain ⟨c, hc, hcn⟩ := findChild_some cs nm i hf
      exact ⟨c, by simp [Node.get_child, Node.childs, hf, hc], hcn⟩
    | none =>
      refine ⟨Node.mk nm 0 1 [], ?_, rfl⟩
      simp [Node.get_child, Node.childs, Node.name, Node.total_time,
        Node.num_samples, hf, List.getElem?_concat_length]

theorem Node.lookup_append (p q : List Nat) (n : Node) :
    Node.lookup (p ++ q) n = (Node.lookup p n).bind (Node.lookup q) := by
  induction p generalizing n with
  | nil => simp [Node.lookup]
  | cons i rest ih =>
    rw [List.cons_append, Node.lookup, Node.lookup]
    cases n.childs[i]? with
    | none => simp
    | some c => simp [ih]

theorem Node.insertAt_lookup (p : List Nat) (t : ℚ) :
    ∀ root n : Node, Node.lookup p root = some n →
      ∃ root1, Node.insertAt p t root = some root1 ∧
        Node.lookup p root1 = some (n.insert_sample t) := by
  induction p with
  | nil =>
    intro root n h
    rw [Node.lookup, Option.some_inj] at h
    subst h
    exact ⟨root.insert_sample t, rfl, rfl⟩
  | cons i rest ih =>
    intro root n h
    rw [Node.lookup] at h
    cases hc : root.childs[i]? with
    | none => rw [hc] at h; simp at h
    | some c =>
      rw [hc, Option.some_bind] at h
      obtain ⟨c1, hc1, hl⟩ := ih c n h
      have hi : i < root.childs.length :=
        (List.getElem?_eq_some_iff.mp hc).1
      refine ⟨root.setChild i c1, ?_, ?_⟩
      · rw [Node.insertAt, hc, Option.some_bind, hc1, Option.map_some']
      · rw [Node.lookup]
        have hset : (root.setChild i c1).childs[i]? = some c1 := by
          simp only [Node.setChild, Node.childs]
          exact List.getElem?_set_self (by simpa using hi)
        rw [hset, Option.some_bind, hl]

theorem Node.pushAt_lookup (p : List Nat) (nm : String) :
    ∀ root n : Node, Node.lookup p root = some n →
      ∃ root1, Node.pushAt p nm root = some (root1, (n.get_child nm).2) ∧
        Node.lookup p root1 = some (n.get_child nm).1 := by
  induction p with
  | nil =>
    intro root n h
    rw [Node.lookup, Option.some_inj] at h
    subst h
    exact ⟨(root.get_child nm).1, rfl, rfl⟩
  | cons i rest ih =>
    intro root n h
    rw [Node.lookup] at h
    cases hc : root.childs[i]? with
    | none => rw [hc] at h; simp at h
    | some c =>
      rw [hc, Option.some_bind] at h
      obtain ⟨c1, hc1, hl⟩ := ih c n h
      have hi : i < root.childs.length :=
        (List.getElem?_eq_some_iff.mp hc).1
      refine ⟨root.setChild i c1, ?_, ?_⟩
      · rw [Node.pushAt, hc, Option.some_bind, hc1, Option.map_some']
      · rw [Node.lookup]
        have hset : (root.setChild i c1).childs[i]? = some c1 := by
          simp only [Node.setChild, Node.childs]
          exact List.getElem?_set_self (by simpa using hi)
        rw [hset, Option.some_bind, hl]

theorem Node.pushAt_valid (p : List Nat) (nm : String) (root n : Node)
    (h : Node.lookup p root = some n) :
    ∃ root1 c, Node.pushAt p nm root = some (root1, (n.get_child nm).2) ∧
      Node.lookup (p ++ [(n.get_child nm).2]) root1 = some c ∧
      c.name = nm := by
  obtain ⟨root1, hp, hl⟩ := Node.pushAt_lookup p nm root n h
  obtain ⟨c, hc, hcn⟩ := Node.get_child_elem n nm
  refine ⟨root1, c, hp, ?_, hcn⟩
  rw [Node.lookup_append, hl, Option.some_bind, Node.lookup, hc,
    Option.some_bind, Node.lookup]

theorem Node.lookup_dropLast (p : List Nat) (root n : Node)
    (hp : p ≠ []) (h : Node.lookup p root = some n) :
    ∃ m, Node.lookup p.dropLast root = some m := by
  conv at h => rw [← List.dropLast_concat_getLast hp]
  rw [Node.lookup_append] at h
  cases hm : Node.lookup p.dropLast root with
  | none => rw [hm] at h; simp at h
  | some m => exact ⟨m, rfl⟩

theorem Node.AllGe1.num {n : Node} (h : n.AllGe1) :
    1 ≤ n.num_samples := by
  cases h with
  | mk nm t k cs hk hcs => simpa [Node.num_samples] using hk

theorem Node.AllGe1.childs_mem {n : Node} (h : n.AllGe1) :
    ∀ c ∈ n.childs, c.AllGe1 := by
  cases h with
  | mk nm t k cs hk hcs => simpa [Node.childs] using hcs

theorem Node.AllGe1.insert {n : Node} (h : n.AllGe1) (t : ℚ) :
    (n.insert_sample t).AllGe1 := by
  cases h with
  | mk nm tt k cs hk hcs =>
    simp only [Node.insert_sample, Node.name, Node.total_time,
      Node.num_samples, Node.childs]
    exact Node.AllGe1.mk _ _ _ _ (by omega) hcs

theorem Node.AllGe1.get_child_fst {n : Node} (h : n.AllGe1) (nm : String) :
    ((n.get_child nm).1).AllGe1 := by
  cases n with
  | mk nm0 t0 k0 cs =>
    cases hf : findChild cs nm with
    | some i => simpa [Node.get_child, Node.childs, hf] using h
    | none =>
      simp only [Node.get_child, Node.childs, Node.name, Node.total_time,
        Node.num_samples, hf]
      cases h with
      | mk _ _ _ _ hk hcs =>
        refine Node.AllGe1.mk _ _ _ _ hk ?_
        intro c hc
        rcases List.mem_append.mp hc with h1 | h2
        · exact hcs c h1
        · rw [List.mem_singleton.mp h2]
          exact Node.AllGe1.mk _ _ _ _ (by omega)
            (by intro c hc; exact absurd hc (List.not_mem_nil c))

theorem Node.AllGe1.set_child {n c : Node} (h : n.AllGe1) (hc : c.AllGe1)
    (i : Nat) : (n.setChild i c).AllGe1 := by
  cases h with
  | mk nm tt k cs hk hcs =>
    simp only [Node.setChild, Node.name, Node.total_time,
      Node.num_samples, Node.childs]
    refine Node.AllGe1.mk _ _ _ _ hk ?_
    intro d hd
    rcases List.mem_or_eq_of_mem_set hd with h1 | h2
    · exact hcs d h1
    · rw [h2]; exact hc

theorem Node.insertAt_allGe1 (p : List Nat) (t : ℚ) :
    ∀ root root1 : Node, root.AllGe1 →
      Node.insertAt p t root = some root1 → root1.AllGe1 := by
  induction p with
  | nil =>
    intro root root1 h he
    rw [Node.insertAt, Option.some_inj] at he
    rw [← he]
    exact h.insert t
  | cons i rest ih =>
    intro root root1 h he
    rw [Node.insertAt] at he
    cases hc : root.childs[i]? with
    | none => rw [hc] at he; simp at he
    | some c =>
      rw [hc, Option.some_bind] at he
      rcases Option.map_eq_some'.mp he with ⟨c1, hc1, heq⟩
      have hcm : c.AllGe1 := h.childs_mem c (List.getElem?_mem hc)
      rw [← heq]
      exact h.set_child (ih c c1 hcm hc1) i

theorem Node.pushAt_allGe1 (p : List Nat) (nm : String) :
    ∀ (root : Node) (r : Node × Nat), root.AllGe1 →
      Node.pushAt p nm root = some r → r.1.AllGe1 := by
  induction p with
  | nil =>
    intro root r h he
    rw [Node.pushAt, Option.some_inj] at he
    rw [← he]
    exact h.get_child_fst nm
  | cons i rest ih =>
    intro root r h he
    rw [Node.pushAt] at he
    cases hc : root.childs[i]? with
    | none => rw [hc] at he; simp at he
    | some c =>
      rw [hc, Option.some_bind] at he
      rcases Option.map_eq_some'.mp he with ⟨r1, hr1, heq⟩
      have hcm : c.AllGe1 := h.childs_mem c (List.getElem?_mem hc)
      rw [← heq]
      exact h.set_child (ih c r1 hcm hr1) i

theorem reachable_allGe1 {s : ProfilerRecords} (h : Reachable s) :
    s.root.AllGe1 := by
  induction h with
  | init =>
    exact Node.AllGe1.mk _ _ _ _ (by omega)
      (by intro c hc; exact absurd hc (List.not_mem_nil c))
  | push hr hp ih =>
    rename_i s s1 nm
    rw [ProfilerRecords.push] at hp
    cases hcur : s.current_node with
    | none => rw [hcur] at hp; simp at hp
    | some p =>
      rw [hcur, Option.some_bind] at hp
      rcases Option.map_eq_some'.mp hp with ⟨r, hra, heq⟩
      rw [← heq]
      exact Node.pushAt_allGe1 p nm s.root r ih hra
  | pop hr hp ih =>
    rename_i s s1
    rw [ProfilerRecords.pop] at hp
    cases hcur : s.current_node with
    | none => rw [hcur] at hp; simp at hp
    | some p =>
      rw [hcur, Option.map_some', Option.some_inj] at hp
      rw [← hp]
      exact ih
  | insert hr hp ih =>
    rename_i s s1 t
    rw [ProfilerRecords.insert_sample] at hp
    cases hcur : s.current_node with
    | none => rw [hcur] at hp; simp at hp
    | some p =>
      rw [hcur, Option.some_bind] at hp
      rcases Option.map_eq_some'.mp hp with ⟨r, hra, heq⟩
      rw [← heq]
      exact Node.insertAt_allGe1 p t s.root r ih hra

theorem Node.subNode_ge1 {n m : Node} (hs : Node.SubNode n m) :
    n.AllGe1 → 1 ≤ m.num_samples := by
  induction hs with
  | refl q => exact fun h => h.num
  | step hmem hsub ih => exact fun h => ih (h.childs_mem _ hmem)

theorem foldl_sub_eq {α : Type} (g : α → ℚ) (l : List α) (a : ℚ) :
    l.foldl (fun u x => u - g x) a = a - (l.map g).sum := by
  induction l generalizing a with
  | nil => simp
  | cons x xs ih =>
    simp only [List.foldl_cons, List.map_cons, List.sum_cons, ih]
    ring

theorem printM_unfold (n : Node) (depth : Nat) :
    printM n depth =
      if n.get_averaged < 1 / 1000000 then
        (headLines n depth ++ zeroLines n depth, printKids n depth)
      else if n.get_averaged < 1 / 10 then
        (headLines n depth ++ childLines n depth "ms" 1000 ++
          unaccountedLines n depth "ms" 1000, printKids n depth)
      else
        (headLines n depth ++ childLines n depth "s" 1 ++
          unaccountedLines n depth "s" 1, printKids n depth) := by
  cases n with
  | mk nm tt k cs =>
    rw [printM]
    by_cases h1 : (Node.mk nm tt k cs).get_averaged < 1 / 1000000
    · simp only [h1, if_true]
      simp only [List.map_map, Function.comp_def]
      rw [List.attach_map_val cs (fun c =>
            PLine.timeOnly (depth + 1) c.get_averaged c.name ::
              (printM c (depth + 1)).1),
          List.attach_map_val cs (fun c => (printM c (depth + 1)).2)]
      simp only [headLines, zeroLines, printKids, Node.childs, Node.name,
        Node.total_time, Node.num_samples]
    · by_cases h2 : (Node.mk nm tt k cs).get_averaged < 1 / 10
      · simp only [h1, h2, if_true, if_false]
        simp only [List.map_map, Function.comp_def, List.foldl_map,
          foldl_sub_eq]
        rw [List.attach_map_val cs (fun c =>
              PLine.timePct (depth + 1) (c.get_averaged * 1000) "ms"
                  (c.get_averaged * 100 / (Node.mk nm tt k cs).get_averaged)
                  c.name :: (printM c (depth + 1)).1),
            List.attach_map_val cs (fun c => (printM c (depth + 1)).2),
            List.attach_map_val cs Node.get_averaged]
        simp only [headLines, childLines, unaccountedLines, unaccountedOf,
          printKids, Node.childs, Node.name, Node.total_time,
          Node.num_samples]
      · simp only [h1, h2, if_true, if_false]
        simp only [List.map_map, Function.comp_def, List.foldl_map,
          foldl_sub_eq]
        rw [List.attach_map_val cs (fun c =>
              PLine.timePct (depth + 1) (c.get_averaged * 1) "s"
                  (c.get_averaged * 100 / (Node.mk nm tt k cs).get_averaged)
                  c.name :: (printM c (depth + 1)).1),
            List.attach_map_val cs (fun c => (printM c (depth + 1)).2),
            List.attach_map_val cs Node.get_averaged]
        simp only [headLines, childLines, unaccountedLines, unaccountedOf,
          printKids, Node.childs, Node.name, Node.total_time,
          Node.num_samples]
theorem printM_snd (n : Node) (depth : Nat) :
    (printM n depth).2 = printKids n depth := by
  rw [printM_unfold]
  split_ifs <;> rfl

theorem printM_preserves (n : Node) : ∀ depth, (printM n depth).2 = n := by
  induction n using Node.ind with
  | h nm tt k cs ih =>
    intro depth
    rw [printM_snd, printKids]
    simp only [Node.childs, Node.name, Node.total_time, Node.num_samples]
    have hmap : cs.map (fun c => (printM c (depth + 1)).2) = cs.map id :=
      List.map_congr_left fun c hc => ih c hc (depth + 1)
    rw [hmap, List.map_id]

theorem run_invariant (ops : List Op) :
    ∀ (s : ProfilerRecords) (p : List Nat) (n : Node),
      s.current_node = some p → Node.lookup p s.root = some n →
      (∀ k, closes (ops.take k) ≤ opens (ops.take k) + p.length) →
      ∃ (s1 : ProfilerRecords) (q : List Nat) (m : Node),
        run s ops = some s1 ∧ s1.current_node = some q ∧
        Node.lookup q s1.root = some m ∧
        q.length + closes ops = p.length + opens ops := by
  induction ops with
  | nil =>
    intro s p n hc hl hpre
    exact ⟨s, p, n, rfl, hc, hl, by simp [closes, opens]⟩
  | cons op rest ih =>
    intro s p n hc hl hpre
    cases op with
    | enter nm =>
      obtain ⟨root1, c, hpush, hvalid, hcn⟩ :=
        Node.pushAt_valid p nm s.root n hl
      have hs1 : s.push nm =
          some ⟨root1, some (p ++ [(n.get_child nm).2]),
            s.current_depth + 1⟩ := by
        rw [ProfilerRecords.push, hc, Option.some_bind, hpush,
          Option.map_some']
      have hpre1 : ∀ k, closes (rest.take k) ≤
          opens (rest.take k) + (p ++ [(n.get_child nm).2]).length := by
        intro k
        have hk := hpre (k + 1)
        simp only [List.take_succ_cons, closes, opens] at hk
        simp only [List.length_append, List.length_cons,
          List.length_nil]
        omega
      obtain ⟨s2, q, m, hrun, hq, hlm, hcount⟩ :=
        ih ⟨root1, some (p ++ [(n.get_child nm).2]),
            s.current_depth + 1⟩
          (p ++ [(n.get_child nm).2]) c rfl hvalid hpre1
      refine ⟨s2, q, m, ?_, hq, hlm, ?_⟩
      · rw [run, applyOp, hs1, Option.some_bind, hrun]
      · simp only [closes, opens] at hcount ⊢
        simp only [List.length_append, List.length_cons,
          List.length_nil] at hcount
        omega
    | leave t =>
      have hp1 := hpre 1
      simp only [List.take_succ_cons, List.take_zero, closes, opens] at hp1
      have hpne : p ≠ [] := by
        intro h0
        rw [h0] at hp1
        simp at hp1
      obtain ⟨root1, hins, hl1⟩ := Node.insertAt_lookup p t s.root n hl
      have hs1 : s.insert_sample t =
          some ⟨root1, some p, s.current_depth⟩ := by
        rw [ProfilerRecords.insert_sample, hc, Option.some_bind, hins,
          Option.map_some']
      have hpop : (⟨root1, some p, s.current_depth⟩ :
            ProfilerRecords).pop =
          some ⟨root1, some p.dropLast, s.current_depth - 1⟩ := by
        rw [ProfilerRecords.pop]
        simp [hpne]
      obtain ⟨m1, hm1⟩ :=
        Node.lookup_dropLast p root1 (n.insert_sample t) hpne hl1
      have hplen : 1 ≤ p.length := by
        cases p with
        | nil => exact absurd rfl hpne
        | cons a as => simp
      have hpre2 : ∀ k, closes (rest.take k) ≤
          opens (rest.take k) + p.dropLast.length := by
        intro k
        have hk := hpre (k + 1)
        simp only [List.take_succ_cons, closes, opens] at hk
        rw [List.length_dropLast]
        omega
      obtain ⟨s2, q, m, hrun, hq, hlm, hcount⟩ :=
        ih ⟨root1, some p.dropLast, s.current_depth - 1⟩ p.dropLast m1
          rfl hm1 hpre2
      refine ⟨s2, q, m, ?_, hq, hlm, ?_⟩
      · rw [run, applyOp, hs1, Option.some_bind, hpop, Option.some_bind,
          hrun]
      · simp only [closes, opens] at hcount ⊢
        rw [List.length_dropLast] at hcount
        omega

/-! ### Claim theorems -/

/-- C1: the claim says a second `stop()` after a successful one
aborts with the contract-violation assertion, and a single `stop()` on
an active region never raises.  The code violates the first half:
`Profiler::stop` checks `assert_info(!stopped, ...)` but never sets
`stopped = true`, so after a first successful stop the handle still has
`stopped = false` and a second `stop()` passes the assertion, inserts a
second sample (here into the root) and pops the cursor past the root,
instead of aborting.  This theorem evaluates the code on that failing
trace: create at time 0, stop at time 1 (succeeds, as claimed), stop
again at time 2 (succeeds as well, contradicting the claim). -/
theorem stop_twice_passes_assert :
    Profiler.create "A" 0 ProfilerRecords.init =
      some (⟨0, "A", false⟩,
        ⟨Node.mk "[Taichi Profiler]" 0 1 [Node.mk "A" 0 1 []],
          some [0], 1⟩) ∧
    Profiler.stop ⟨0, "A", false⟩ 1
        ⟨Node.mk "[Taichi Profiler]" 0 1 [Node.mk "A" 0 1 []],
          some [0], 1⟩ =
      StopResult.ok ⟨0, "A", false⟩
        ⟨Node.mk "[Taichi Profiler]" 0 1 [Node.mk "A" 1 2 []],
          some [], 0⟩ ∧
    Profiler.stop ⟨0, "A", false⟩ 2
        ⟨Node.mk "[Taichi Profiler]" 0 1 [Node.mk "A" 1 2 []],
          some [], 0⟩ =
      StopResult.ok ⟨0, "A", false⟩
        ⟨Node.mk "[Taichi Profiler]" 2 2 [Node.mk "A" 1 2 []],
          none, -1⟩ := by
  refine ⟨rfl, ?_, ?_⟩ <;>
    norm_num [Profiler.stop, ProfilerRecords.insert_sample,
      ProfilerRecords.pop, Node.insertAt, Node.insert_sample,
      Node.setChild, Node.childs, Node.name, Node.total_time,
      Node.num_samples]

/-- C2: the claim says that after an explicit `stop()` the destructor
performs no further `insert_sample` or `pop`, and that without an
explicit stop it fires exactly once.  The second half holds (second
conjunct), but the first is violated: since `stop()` never sets
`stopped = true`, the destructor's `if (!stopped) stop();` runs the
whole termination again.  First conjunct: destroying the handle in the
state left by the explicit stop of the C1 trace performs a second
`insert_sample` (into the root) and a second `pop` (past the root). -/
theorem destructor_fires_after_explicit_stop :
    Profiler.destruct ⟨0, "A", false⟩ 2
        ⟨Node.mk "[Taichi Profiler]" 0 1 [Node.mk "A" 1 2 []],
          some [], 0⟩ =
      StopResult.ok ⟨0, "A", false⟩
        ⟨Node.mk "[Taichi Profiler]" 2 2 [Node.mk "A" 1 2 []],
          none, -1⟩ ∧
    Profiler.destruct ⟨0, "A", false⟩ 1
        ⟨Node.mk "[Taichi Profiler]" 0 1 [Node.mk "A" 0 1 []],
          some [0], 1⟩ =
      StopResult.ok ⟨0, "A", false⟩
        ⟨Node.mk "[Taichi Profiler]" 0 1 [Node.mk "A" 1 2 []],
          some [], 0⟩ := by
  refine ⟨?_, ?_⟩ <;>
    norm_num [Profiler.destruct, Profiler.stop,
      ProfilerRecords.insert_sample, ProfilerRecords.pop, Node.insertAt,
      Node.insert_sample, Node.setChild, Node.childs, Node.name,
      Node.total_time, Node.num_samples]

/-- C5: `get_child` is an idempotent lookup: repeating the call on its
own result returns the identical tree and child index; and when no
child of that name exists it appends a fresh `Node` with
`total_time = 0`, `num_samples = 1` at the end of the child list and
returns its index. -/
theorem get_child_idempotent_and_fresh (n : Node) (nm : String) :
    ((n.get_child nm).1).get_child nm = n.get_child nm ∧
    ((∀ c ∈ n.childs, c.name ≠ nm) →
      n.get_child nm =
        (Node.mk n.name n.total_time n.num_samples
          (n.childs ++ [Node.mk nm 0 1 []]), n.childs.length)) := by
  refine ⟨Node.get_child_idem n nm, fun hf => ?_⟩
  exact Node.get_child_fresh n nm ((findChild_none_iff n.childs nm).mpr hf)

/-- C5 witness: on a childless root, `get_child "A"` appends the fresh
node at index 0 and a repeated call returns the same result. -/
theorem get_child_idempotent_and_fresh_witness :
    (((Node.mk "r" 0 1 []).get_child "A").1).get_child "A" =
      (Node.mk "r" 0 1 []).get_child "A" ∧
    (Node.mk "r" 0 1 []).get_child "A" =
      (Node.mk "r" 0 1 [Node.mk "A" 0 1 []], 0) :=
  ⟨(get_child_idempotent_and_fresh (Node.mk "r" 0 1 []) "A").1,
    (get_child_idempotent_and_fresh (Node.mk "r" 0 1 []) "A").2
      (by intro c hc; exact absurd hc (List.not_mem_nil c))⟩

/-- C6: in every reachable state, every node of the tree has
`num_samples ≥ 1`, so the guard `max(num_samples, 1)` of
`get_averaged` is the identity (the `num_samples < 1` branch is
unreachable) and the average equals `total_time / num_samples`. -/
theorem averaged_guard_unreachable (s : ProfilerRecords) (m : Node)
    (hs : Reachable s) (hm : Node.SubNode s.root m) :
    1 ≤ m.num_samples ∧ max m.num_samples 1 = m.num_samples ∧
    m.get_averaged = m.total_time / (m.num_samples : ℚ) := by
  have h1 : 1 ≤ m.num_samples := Node.subNode_ge1 hm (reachable_allGe1 hs)
  have h2 : max m.num_samples 1 = m.num_samples := max_eq_left h1
  exact ⟨h1, h2, by rw [Node.get_averaged, h2]⟩

/-- C6 witness: the root of the freshly constructed records. -/
theorem averaged_guard_unreachable_witness :
    1 ≤ (ProfilerRecords.init.root).num_samples ∧
    max (ProfilerRecords.init.root).num_samples 1 =
      (ProfilerRecords.init.root).num_samples ∧
    (ProfilerRecords.init.root).get_averaged =
      (ProfilerRecords.init.root).total_time /
        ((ProfilerRecords.init.root).num_samples : ℚ) :=
  averaged_guard_unreachable ProfilerRecords.init
    ProfilerRecords.init.root Reachable.init
    (Node.SubNode.refl ProfilerRecords.init.root)

/-- C9: rendering is read-only: `print` returns the records with the
root tree (every node's name, children, `total_time`, `num_samples`),
cursor and depth exactly as they were. -/
theorem print_read_only (s : ProfilerRecords) :
    (ProfilerRecords.print s).2 = s := by
  rw [ProfilerRecords.print]
  simp only [printM_preserves]

/-- C10: `pop` checks no precondition: with the cursor at the root it
succeeds, sets the cursor to the root's null parent (`none`) and
decrements the depth (below zero when it was 0), after which `push`
and `insert_sample` dereference a null cursor (undefined behaviour,
modelled as `none`). -/
theorem pop_at_root_unchecked (s : ProfilerRecords) (nm : String)
    (t : ℚ) (h : s.current_node = some []) :
    s.pop = some ⟨s.root, none, s.current_depth - 1⟩ ∧
    s.current_depth - 1 < s.current_depth ∧
    (⟨s.root, none, s.current_depth - 1⟩ :
      ProfilerRecords).push nm = none ∧
    (⟨s.root, none, s.current_depth - 1⟩ :
      ProfilerRecords).insert_sample t = none := by
  refine ⟨?_, by omega, rfl, rfl⟩
  rw [ProfilerRecords.pop, h, Option.map_some']
  simp

/-- C10 witness: popping the freshly constructed records (cursor at
root, depth 0) gives a null cursor and depth -1. -/
theorem pop_at_root_unchecked_witness :
    ProfilerRecords.init.pop =
      some ⟨ProfilerRecords.init.root, none,
        ProfilerRecords.init.current_depth - 1⟩ ∧
    ProfilerRecords.init.current_depth - 1 <
      ProfilerRecords.init.current_depth ∧
    (⟨ProfilerRecords.init.root, none,
      ProfilerRecords.init.current_depth - 1⟩ :
      ProfilerRecords).push "A" = none ∧
    (⟨ProfilerRecords.init.root, none,
      ProfilerRecords.init.current_depth - 1⟩ :
      ProfilerRecords).insert_sample 1 = none :=
  pop_at_root_unchecked ProfilerRecords.init "A" 1 rfl

/-- C3: starting with the cursor at the root, over any properly nested
trace of region entries and stops (no prefix stops more regions than it
entered), every prefix executes without fault and leaves the cursor on
a well-defined node, and the cursor is back at the root exactly at
those prefixes whose stops balance their entries — i.e. exactly when
the outermost open region has stopped, and at no strictly earlier
point while some region is still open. -/
theorem cursor_balance (ops : List Op)
    (hnest : ∀ k, k ≤ ops.length →
      closes (ops.take k) ≤ opens (ops.take k)) :
    ∀ k, k ≤ ops.length →
      ∃ (s1 : ProfilerRecords) (q : List Nat),
        run ProfilerRecords.init (ops.take k) = some s1 ∧
        s1.current_node = some q ∧
        (q = [] ↔ closes (ops.take k) = opens (ops.take k)) := by
  have hnest1 : ∀ k, closes (ops.take k) ≤ opens (ops.take k) := by
    intro k
    by_cases hk : k ≤ ops.length
    · exact hnest k hk
    · rw [List.take_of_length_le (le_of_not_le hk)]
      have h0 := hnest ops.length (le_refl ops.length)
      rwa [List.take_of_length_le (le_refl ops.length)] at h0
  intro k hk
  have hpre : ∀ j, closes ((ops.take k).take j) ≤
      opens ((ops.take k).take j) + ([] : List Nat).length := by
    intro j
    rw [List.take_take]
    simpa using hnest1 (min j k)
  obtain ⟨s1, q, m, hrun, hq, hlm, hcount⟩ :=
    run_invariant (ops.take k) ProfilerRecords.init []
      (Node.mk "[Taichi Profiler]" 0 1 []) rfl rfl hpre
  refine ⟨s1, q, hrun, hq, ?_, ?_⟩
  · intro h0
    rw [h0] at hcount
    simpa using hcount
  · intro he
    rw [he] at hcount
    simp only [List.length_nil] at hcount
    have : q.length = 0 := by omega
    exact List.length_eq_zero.mp this

/-- C3 witness: the nested trace enter A, enter B, stop B, stop A; its
full prefix is balanced, so the cursor is back at the root. -/
theorem cursor_balance_witness :
    ∃ (s1 : ProfilerRecords) (q : List Nat),
      run ProfilerRecords.init
        ([Op.enter "A", Op.enter "B", Op.leave 1,
          Op.leave 2].take 4) = some s1 ∧
      s1.current_node = some q ∧
      (q = [] ↔
        closes ([Op.enter "A", Op.enter "B", Op.leave 1,
          Op.leave 2].take 4) =
        opens ([Op.enter "A", Op.enter "B", Op.leave 1,
          Op.leave 2].take 4)) :=
  cursor_balance [Op.enter "A", Op.enter "B", Op.leave 1, Op.leave 2]
    (by decide) 4 (by decide)

/-- C4: a region entered under a parent that has no child of that name
yet (so its node is freshly created with the phantom initial sample),
with zero nested children and a single stop, leaves its node with
`num_samples = 2` (1 phantom + 1 real) and `total_time` equal to the
measured elapsed time `t1 - t0`; the cursor and depth return to their
values before the region. -/
theorem fresh_region_single_stop (s : ProfilerRecords) (p : List Nat)
    (n : Node) (nm : String) (t0 t1 : ℚ)
    (hcur : s.current_node = some p)
    (hn : Node.lookup p s.root = some n)
    (hfresh : ∀ c ∈ n.childs, c.name ≠ nm) :
    ∃ (prof : Profiler) (s1 s2 : ProfilerRecords),
      Profiler.create nm t0 s = some (prof, s1) ∧
      prof.stop t1 s1 = StopResult.ok prof s2 ∧
      Node.lookup (p ++ [n.childs.length]) s2.root =
        some (Node.mk nm (t1 - t0) 2 []) ∧
      s2.current_node = some p ∧
      s2.current_depth = s.current_depth := by
  have hfc : findChild n.childs nm = none :=
    (findChild_none_iff n.childs nm).mpr hfresh
  have hgc := Node.get_child_fresh n nm hfc
  obtain ⟨root1, hpush, hl1⟩ := Node.pushAt_lookup p nm s.root n hn
  rw [hgc] at hpush hl1
  have hchild : Node.lookup (p ++ [n.childs.length]) root1 =
      some (Node.mk nm 0 1 []) := by
    rw [Node.lookup_append, hl1, Option.some_bind, Node.lookup]
    simp only [Node.childs, List.getElem?_concat_length,
      Option.some_bind, Node.lookup]
  have hs1 : s.push nm =
      some ⟨root1, some (p ++ [n.childs.length]),
        s.current_depth + 1⟩ := by
    rw [ProfilerRecords.push, hcur, Option.some_bind, hpush,
      Option.map_some']
  have hcreate : Profiler.create nm t0 s =
      some (⟨t0, nm, false⟩,
        ⟨root1, some (p ++ [n.childs.length]),
          s.current_depth + 1⟩) := by
    rw [Profiler.create, hs1, Option.map_some']
  obtain ⟨root2, hins, hl2⟩ :=
    Node.insertAt_lookup (p ++ [n.childs.length]) (t1 - t0) root1
      (Node.mk nm 0 1 []) hchild
  have hsins : (⟨root1, some (p ++ [n.childs.length]),
        s.current_depth + 1⟩ : ProfilerRecords).insert_sample
        (t1 - t0) =
      some ⟨root2, some (p ++ [n.childs.length]),
        s.current_depth + 1⟩ := by
    rw [ProfilerRecords.insert_sample, Option.some_bind, hins,
      Option.map_some']
  have hpne : p ++ [n.childs.length] ≠ [] := by simp
  have hspop : (⟨root2, some (p ++ [n.childs.length]),
        s.current_depth + 1⟩ : ProfilerRecords).pop =
      some ⟨root2, some p, s.current_depth⟩ := by
    rw [ProfilerRecords.pop, Option.map_some']
    simp [hpne, List.dropLast_concat]
  have hstop : Profiler.stop ⟨t0, nm, false⟩ t1
      ⟨root1, some (p ++ [n.childs.length]), s.current_depth + 1⟩ =
      StopResult.ok ⟨t0, nm, false⟩ ⟨root2, some p, s.current_depth⟩ := by
    simp only [Profiler.stop, hsins, hspop, Bool.false_eq_true,
      if_false]
  have hbump : (Node.mk nm 0 1 []).insert_sample (t1 - t0) =
      Node.mk nm (t1 - t0) 2 [] := by
    simp [Node.insert_sample, Node.name, Node.total_time,
      Node.num_samples, Node.childs]
  exact ⟨⟨t0, nm, false⟩, _, _, hcreate, hstop,
    by rw [hl2, hbump], rfl, rfl⟩

/-- C4 witness: region "A" on the fresh records, entered at time 0 and
stopped at time 1: the node ends with `num_samples = 2` and
`total_time = 1`. -/
theorem fresh_region_single_stop_witness :
    ∃ (prof : Profiler) (s1 s2 : ProfilerRecords),
      Profiler.create "A" 0 ProfilerRecords.init = some (prof, s1) ∧
      prof.stop 1 s1 = StopResult.ok prof s2 ∧
      Node.lookup
          ([] ++ [(Node.mk "[Taichi Profiler]" 0 1 []).childs.length])
          s2.root =
        some (Node.mk "A" (1 - 0) 2 []) ∧
      s2.current_node = some [] ∧
      s2.current_depth = ProfilerRecords.init.current_depth :=
  fresh_region_single_stop ProfilerRecords.init []
    (Node.mk "[Taichi Profiler]" 0 1 []) "A" 0 1 rfl rfl
    (by intro c hc; exact absurd hc (List.not_mem_nil c))

/-- C7: when `print` expands a node it chooses the time unit and scale
once, from that node's own averaged total.  Below the 1-microsecond
threshold each child's averaged time is listed as a `timeOnly` line in
seconds with no percentage and the children are recursed plainly;
otherwise the unit is `"ms"` with a ×1000 scale when the averaged
total is below 0.1 seconds, and `"s"` with ×1 scale from 0.1 seconds
up, each child getting a `timePct` line with the scaled time and its
percentage of this node's averaged total. -/
theorem render_unit_scale (n : Node) (depth : Nat) :
    (n.get_averaged < 1 / 1000000 →
      (printM n depth).1 = headLines n depth ++ zeroLines n depth) ∧
    (1 / 1000000 ≤ n.get_averaged → n.get_averaged < 1 / 10 →
      (printM n depth).1 = headLines n depth ++
        childLines n depth "ms" 1000 ++
        unaccountedLines n depth "ms" 1000) ∧
    (1 / 10 ≤ n.get_averaged →
      (printM n depth).1 = headLines n depth ++
        childLines n depth "s" 1 ++
        unaccountedLines n depth "s" 1) := by
  refine ⟨fun h1 => ?_, fun h1 h2 => ?_, fun h2 => ?_⟩
  · rw [printM_unfold, if_pos h1]
  · rw [printM_unfold, if_neg (not_lt.mpr h1), if_pos h2]
  · have hge : ¬n.get_averaged < 1 / 1000000 :=
      not_lt.mpr (le_trans (by norm_num) h2)
    rw [printM_unfold, if_neg hge, if_neg (not_lt.mpr h2)]

/-- C7 witness: a node of averaged total 0 (negligible branch), one of
1/100 (the "ms" ×1000 branch) and one of 1 (the "s" ×1 branch). -/
theorem render_unit_scale_witness :
    ((printM (Node.mk "z" 0 1 []) 0).1 =
      headLines (Node.mk "z" 0 1 []) 0 ++
        zeroLines (Node.mk "z" 0 1 []) 0) ∧
    ((printM (Node.mk "m" (1 / 100) 1 []) 0).1 =
      headLines (Node.mk "m" (1 / 100) 1 []) 0 ++
        childLines (Node.mk "m" (1 / 100) 1 []) 0 "ms" 1000 ++
        unaccountedLines (Node.mk "m" (1 / 100) 1 []) 0 "ms" 1000) ∧
    ((printM (Node.mk "w" 1 1 []) 0).1 =
      headLines (Node.mk "w" 1 1 []) 0 ++
        childLines (Node.mk "w" 1 1 []) 0 "s" 1 ++
        unaccountedLines (Node.mk "w" 1 1 []) 0 "s" 1) :=
  ⟨(render_unit_scale (Node.mk "z" 0 1 []) 0).1
      (by norm_num [Node.get_averaged, Node.total_time,
        Node.num_samples]),
    (render_unit_scale (Node.mk "m" (1 / 100) 1 []) 0).2.1
      (by norm_num [Node.get_averaged, Node.total_time,
        Node.num_samples])
      (by norm_num [Node.get_averaged, Node.total_time,
        Node.num_samples]),
    (render_unit_scale (Node.mk "w" 1 1 []) 0).2.2
      (by norm_num [Node.get_averaged, Node.total_time,
        Node.num_samples])⟩

/-- C8 (amended): for a node whose averaged total is at least the
1-microsecond threshold, after the children (each printed at indent
`depth + 1`, one level deeper than the node) the `[unaccounted]` line —
the remainder scaled with the node's unit, with its percentage of the
node's averaged total, at the same indent `depth + 1` as the children —
is printed if and only if the node has at least one child and the
remainder exceeds 5% of the node's averaged total.  (Below the
threshold the negligible-total branch prints no such line even when
that condition holds; see the counterexample.) -/
theorem render_unaccounted_iff (n : Node) (depth : Nat)
    (hge : 1 / 1000000 ≤ n.get_averaged) :
    (printM n depth).1 = headLines n depth ++
      childLines n depth (unitOf n) (scaleOf n) ++
      unaccountedLines n depth (unitOf n) (scaleOf n) ∧
    (unaccountedLines n depth (unitOf n) (scaleOf n) ≠ [] ↔
      (n.childs ≠ [] ∧
        unaccountedOf n > n.get_averaged * (5 / 100))) ∧
    unaccountedLines n depth (unitOf n) (scaleOf n) =
      (if n.childs.isEmpty = false ∧
          unaccountedOf n > n.get_averaged * (5 / 100) then
        [PLine.timePct (depth + 1) (unaccountedOf n * scaleOf n)
          (unitOf n) (unaccountedOf n * 100 / n.get_averaged)
          "[unaccounted]"]
      else []) := by
  refine ⟨?_, ?_, rfl⟩
  · by_cases h2 : n.get_averaged < 1 / 10
    · simp only [unitOf, scaleOf, if_pos h2]
      rw [printM_unfold, if_neg (not_lt.mpr hge), if_pos h2]
    · simp only [unitOf, scaleOf, if_neg h2]
      rw [printM_unfold, if_neg (not_lt.mpr hge), if_neg h2]
  · rw [unaccountedLines]
    by_cases hc : n.childs.isEmpty = false ∧
        unaccountedOf n > n.get_averaged * (5 / 100)
    · rw [if_pos hc]
      rw [List.isEmpty_eq_false] at hc
      simp [hc]
    · rw [if_neg hc]
      rw [List.isEmpty_eq_false] at hc
      exact iff_of_false (by simp) hc

/-- C8 witness: a node of averaged total 2 s with one zero-average
child; the remainder is 2, which exceeds 5% of 2, so the
`[unaccounted]` line is emitted. -/
theorem render_unaccounted_iff_witness :
    ((printM (Node.mk "w" 2 1 [Node.mk "c" 0 1 []]) 0).1 =
      headLines (Node.mk "w" 2 1 [Node.mk "c" 0 1 []]) 0 ++
        childLines (Node.mk "w" 2 1 [Node.mk "c" 0 1 []]) 0
          (unitOf (Node.mk "w" 2 1 [Node.mk "c" 0 1 []]))
          (scaleOf (Node.mk "w" 2 1 [Node.mk "c" 0 1 []])) ++
        unaccountedLines (Node.mk "w" 2 1 [Node.mk "c" 0 1 []]) 0
          (unitOf (Node.mk "w" 2 1 [Node.mk "c" 0 1 []]))
          (scaleOf (Node.mk "w" 2 1 [Node.mk "c" 0 1 []]))) ∧
    (unaccountedLines (Node.mk "w" 2 1 [Node.mk "c" 0 1 []]) 0
        (unitOf (Node.mk "w" 2 1 [Node.mk "c" 0 1 []]))
        (scaleOf (Node.mk "w" 2 1 [Node.mk "c" 0 1 []])) ≠ [] ↔
      ((Node.mk "w" 2 1 [Node.mk "c" 0 1 []]).childs ≠ [] ∧
        unaccountedOf (Node.mk "w" 2 1 [Node.mk "c" 0 1 []]) >
          (Node.mk "w" 2 1 [Node.mk "c" 0 1 []]).get_averaged *
            (5 / 100))) ∧
    unaccountedLines (Node.mk "w" 2 1 [Node.mk "c" 0 1 []]) 0
        (unitOf (Node.mk "w" 2 1 [Node.mk "c" 0 1 []]))
        (scaleOf (Node.mk "w" 2 1 [Node.mk "c" 0 1 []])) =
      (if (Node.mk "w" 2 1 [Node.mk "c" 0 1 []]).childs.isEmpty =
            false ∧
          unaccountedOf (Node.mk "w" 2 1 [Node.mk "c" 0 1 []]) >
            (Node.mk "w" 2 1 [Node.mk "c" 0 1 []]).get_averaged *
              (5 / 100) then
        [PLine.timePct (0 + 1)
          (unaccountedOf (Node.mk "w" 2 1 [Node.mk "c" 0 1 []]) *
            scaleOf (Node.mk "w" 2 1 [Node.mk "c" 0 1 []]))
          (unitOf (Node.mk "w" 2 1 [Node.mk "c" 0 1 []]))
          (unaccountedOf (Node.mk "w" 2 1 [Node.mk "c" 0 1 []]) * 100 /
            (Node.mk "w" 2 1 [Node.mk "c" 0 1 []]).get_averaged)
          "[unaccounted]"]
      else []) :=
  render_unaccounted_iff (Node.mk "w" 2 1 [Node.mk "c" 0 1 []]) 0
    (by norm_num [Node.get_averaged, Node.total_time, Node.num_samples])

/-- C8 counterexample to the claim as stated: this node has a child
and its remainder (its full averaged total, 1/2000000) exceeds 5% of
its averaged total, yet the rendered output contains no line labelled
`"[unaccounted]"`, because the node's averaged total is below the
1-microsecond threshold and the negligible-total branch never prints
one. -/
theorem render_unaccounted_cex :
    (Node.mk "x" (1 / 1000000) 2 [Node.mk "c" 0 1 []]).childs ≠ [] ∧
    unaccountedOf (Node.mk "x" (1 / 1000000) 2 [Node.mk "c" 0 1 []]) >
      (Node.mk "x" (1 / 1000000) 2
        [Node.mk "c" 0 1 []]).get_averaged * (5 / 100) ∧
    (printM (Node.mk "x" (1 / 1000000) 2 [Node.mk "c" 0 1 []]) 0).1 =
      [PLine.header 0 "x", PLine.timeOnly 1 0 "c"] ∧
    ((printM (Node.mk "x" (1 / 1000000) 2
        [Node.mk "c" 0 1 []]) 0).1.filter
      (fun l => l.label == "[unaccounted]")) = [] := by
  have hcavg : (Node.mk "c" 0 1 []).get_averaged = 0 := by
    norm_num [Node.get_averaged, Node.total_time, Node.num_samples]
  have hchild : printM (Node.mk "c" 0 1 []) 1 =
      ([], Node.mk "c" 0 1 []) := by
    rw [printM_unfold, if_pos (by rw [hcavg]; norm_num)]
    simp [headLines, zeroLines, printKids, Node.childs, Node.name,
      Node.total_time, Node.num_samples]
  have havg : (Node.mk "x" (1 / 1000000) 2
      [Node.mk "c" 0 1 []]).get_averaged = 1 / 2000000 := by
    norm_num [Node.get_averaged, Node.total_time, Node.num_samples]
  have hmain : (printM (Node.mk "x" (1 / 1000000) 2
      [Node.mk "c" 0 1 []]) 0).1 =
      [PLine.header 0 "x", PLine.timeOnly 1 0 "c"] := by
    rw [printM_unfold, if_pos (by rw [havg]; norm_num)]
    simp [headLines, zeroLines, Node.childs, Node.name, hchild, hcavg]
  refine ⟨by simp [Node.childs], ?_, hmain, by rw [hmain]; rfl⟩
  rw [unaccountedOf, havg]
  simp only [Node.childs, List.map_cons, List.map_nil, hcavg,
    List.sum_cons, List.sum_nil, havg]
  norm_num
